import Mathlib

/-!
Verification of the resume-safe segmented batch processor
(`src/upscale_resume_safe.py`) against its natural-language design
specification.

The script splits a video of duration `total` into segments of
`SEGMENT_DURATION = 120` seconds, upscales the pending segments in a worker
pool (`upscale_segment`), records each processed index in an append-only
resume file (`resume_log.txt`), concatenates the per-segment artifacts
(`concat_segments` on `sorted(glob("seg_*.mp4"))`) and finally deletes the
temporary artifacts and the resume file (`cleanup`).

The embedding below models:
* exact arithmetic over `ℚ` in place of Python floats (ffprobe durations);
* the filesystem as explicit state: the list of present segment-artifact
  indices, the resume-file content (a list of lines, `none` when the file is
  absent) and the log of external-processor invocations;
* Python string formatting `f"seg_{idx:03d}.mp4"` and Python string
  comparison (code-point lexicographic) used by `sorted`.
-/

deriving instance DecidableEq for Except

namespace UpscaleResumeSafe

/-! ## Segment artifact names

`upscale_segment` (line 98) names the artifact of segment `idx` as
`f"seg_{idx:03d}.mp4"`: the decimal representation of `idx`, left-padded
with `'0'` to at least three characters. -/

/-- Decimal digits of `n`, most significant first, computed with explicit
fuel so that the definition is structurally recursive (fuel `n + 1` always
suffices since `n / 10 < n` for `n > 0`). -/
def decCharsAux : ℕ → ℕ → List Char
  | 0, _ => []
  | _ + 1, 0 => []
  | fuel + 1, n + 1 => decCharsAux fuel ((n + 1) / 10) ++ [Nat.digitChar ((n + 1) % 10)]

/-- Decimal representation of `n` as a list of characters (`"0"` for `0`). -/
def decChars (n : ℕ) : List Char := if n = 0 then ['0'] else decCharsAux (n + 1) n

/-- Python `f"{n:03d}"`: the decimal representation left-padded with `'0'`
to a minimum width of three characters. -/
def pad3 (n : ℕ) : List Char := List.replicate (3 - (decChars n).length) '0' ++ decChars n

/-- The artifact filename of segment `idx`: `f"seg_{idx:03d}.mp4"`
(`upscale_segment`, line 98). -/
def segName (idx : ℕ) : String := "seg_" ++ String.mk (pad3 idx) ++ ".mp4"

/-! ## Python string comparison

`main` (line 221) orders the glob results with `sorted`, which compares
strings lexicographically by code point.  The built-in Lean order on `String`
does not reduce in the kernel, so the comparison is embedded directly. -/

/-- Code-point lexicographic comparison of character lists: the Python `<=`
on strings. -/
def lexLe : List Char → List Char → Bool
  | [], _ => true
  | _ :: _, [] => false
  | a :: as, b :: bs => if a < b then true else if b < a then false else lexLe as bs

/-- Python `<=` on strings, as a relation. -/
def pyStrLe (s t : String) : Prop := lexLe s.data t.data = true

instance : DecidableRel pyStrLe := fun s t => by unfold pyStrLe; infer_instance

lemma lexLe_total : ∀ a b : List Char, lexLe a b = true ∨ lexLe b a = true
  | [], _ => Or.inl rfl
  | _ :: _, [] => Or.inr rfl
  | a :: as, b :: bs => by
    rcases lt_trichotomy a b with h | h | h
    · exact Or.inl (by simp [lexLe, h])
    · subst h
      rcases lexLe_total as bs with h' | h'
      · exact Or.inl (by simp [lexLe, h'])
      · exact Or.inr (by simp [lexLe, h'])
    · exact Or.inr (by simp [lexLe, h])

lemma lexLe_trans : ∀ a b c : List Char,
    lexLe a b = true → lexLe b c = true → lexLe a c = true
  | [], _, _, _, _ => rfl
  | _ :: _, [], _, h1, _ => by simp [lexLe] at h1
  | _ :: _, _ :: _, [], _, h2 => by simp [lexLe] at h2
  | a :: as, b :: bs, c :: cs, h1, h2 => by
    rcases lt_trichotomy a b with hab | hab | hab
    · rcases lt_trichotomy b c with hbc | hbc | hbc
      · simp [lexLe, lt_trans hab hbc]
      · subst hbc; simp [lexLe, hab]
      · simp [lexLe, hbc, asymm hbc] at h2
    · subst hab
      rcases lt_trichotomy a c with hbc | hbc | hbc
      · simp [lexLe, hbc]
      · subst hbc
        simp only [lexLe, lt_self_iff_false, if_false] at h1 h2 ⊢
        exact lexLe_trans as bs cs h1 h2
      · simp [lexLe, hbc, asymm hbc] at h2
    · simp [lexLe, hab, asymm hab] at h1

lemma lexLe_antisymm : ∀ a b : List Char,
    lexLe a b = true → lexLe b a = true → a = b
  | [], [], _, _ => rfl
  | [], _ :: _, _, h2 => by simp [lexLe] at h2
  | _ :: _, [], h1, _ => by simp [lexLe] at h1
  | a :: as, b :: bs, h1, h2 => by
    rcases lt_trichotomy a b with hab | hab | hab
    · simp [lexLe, hab, asymm hab] at h2
    · subst hab
      simp only [lexLe, lt_self_iff_false, if_false] at h1 h2
      rw [lexLe_antisymm as bs h1 h2]
    · simp [lexLe, hab, asymm hab] at h1

instance : IsTotal String pyStrLe := ⟨fun s t => lexLe_total s.data t.data⟩

instance : IsTrans String pyStrLe := ⟨fun s t u => lexLe_trans s.data t.data u.data⟩

instance : IsAntisymm String pyStrLe :=
  ⟨fun s t h1 h2 => by
    cases s; cases t
    exact congrArg String.mk (lexLe_antisymm _ _ h1 h2)⟩

/-! ## Ordering facts about segment names

`main` sorts the glob results by filename.  For indices below 1000 the
`%03d` padding makes every name exactly three digits wide, so filename
order coincides with index order; `segName 1000 = "seg_1000.mp4"` breaks
this (it sorts between `"seg_100.mp4"` and `"seg_101.mp4"`). -/

set_option maxRecDepth 4000 in
lemma pad3_lt_1000 : ∀ i < 1000, pad3 i =
    [Nat.digitChar (i / 100), Nat.digitChar (i / 10 % 10), Nat.digitChar (i % 10)] := by
  decide

lemma segName_data (idx : ℕ) :
    (segName idx).data = 's' :: 'e' :: 'g' :: '_' :: (pad3 idx ++ ['.', 'm', 'p', '4']) := rfl

lemma digitChar_lt : ∀ a < 10, ∀ b < 10, a < b → Nat.digitChar a < Nat.digitChar b := by
  decide

lemma segName_le_of_lt {i j : ℕ} (hi : i < 1000) (hj : j < 1000) (hij : i < j) :
    pyStrLe (segName i) (segName j) := by
  unfold pyStrLe
  rw [segName_data, segName_data, pad3_lt_1000 i hi, pad3_lt_1000 j hj]
  rcases (by omega :
      i / 100 < j / 100 ∨
        (i / 100 = j / 100 ∧ (i / 10 % 10 < j / 10 % 10 ∨
          (i / 10 % 10 = j / 10 % 10 ∧ i % 10 < j % 10)))) with h2 | ⟨e2, h1 | ⟨e1, h0⟩⟩
  · have hc := digitChar_lt _ (by omega) _ (by omega) h2
    simp [lexLe, hc]
  · have hc := digitChar_lt _ (by omega) _ (by omega) h1
    rw [e2]
    simp [lexLe, hc]
  · have hc := digitChar_lt _ (by omega) _ (by omega) h0
    rw [e2, e1]
    simp [lexLe, hc]

lemma sorted_segNames {n : ℕ} (hn : n ≤ 1000) :
    List.Sorted pyStrLe ((List.range n).map segName) := by
  rw [List.Sorted, List.pairwise_map]
  refine (List.pairwise_lt_range n).imp_of_mem ?_
  intro a b ha hb hab
  exact segName_le_of_lt (by have := List.mem_range.mp ha; omega)
    (by have := List.mem_range.mp hb; omega) hab

/-! ## Reassembly input

`main` lines 221–222: `files = sorted(glob.glob("seg_*.mp4"))` followed by
`concat_segments(files, OUTPUT)`, which hands `files` in that exact order
to the external merge primitive.  The glob listing is modelled as a list
`gl` of the artifact indices present on disk, in arbitrary filesystem
order. -/

/-- Python `sorted` on a list of strings (code-point lexicographic order). -/
def sortedFiles (l : List String) : List String := l.insertionSort pyStrLe

/-- The ordered list of artifact paths handed to the merge primitive, as a
function of the glob listing `gl` (main lines 221–222). -/
def reassembleInput (gl : List ℕ) : List String := sortedFiles (gl.map segName)

/-! ## Segment planner

`main` lines 192–214: `total = get_duration(INPUT)`,
`nseg = math.ceil(total / SEGMENT_DURATION)` and the job list
`[(INPUT, i*SEGMENT_DURATION, min(SEGMENT_DURATION, total - i*SEGMENT_DURATION), i)
  for i in range(nseg) if i not in done]`.
Durations are modelled exactly over `ℚ`; the process-wide script constant
`SEGMENT_DURATION = 120` is an explicit parameter `seg` here (instantiated
with `120` in every concrete scenario).  The constant `INPUT` component of
each job tuple is dropped; the rest of the tuple is a `SegmentDescriptor`. -/

/-- A planned segment: index, start offset and duration
(the job tuple of main lines 206–211 without the constant input path). -/
structure SegmentDescriptor where
  index : ℕ
  offset : ℚ
  length : ℚ
deriving DecidableEq, Repr

/-- `nseg = math.ceil(total / SEGMENT_DURATION)` (main line 194), as the
count used by `range` (a non-positive ceiling yields an empty range). -/
def nseg (total seg : ℚ) : ℕ := (⌈total / seg⌉).toNat

/-- The indices iterated by main lines 212–213:
`for i in range(nseg) if i not in done`. -/
def pendingIdx (n : ℕ) (done : Finset ℤ) : List ℕ :=
  (List.range n).filter (fun i => ¬ (i : ℤ) ∈ done)

/-- The job list of main lines 205–214. -/
def pendingJobs (total seg : ℚ) (done : Finset ℤ) : List SegmentDescriptor :=
  (pendingIdx (nseg total seg) done).map
    (fun i => ⟨i, (i : ℚ) * seg, min seg (total - (i : ℚ) * seg)⟩)

/-- The full plan: the job list computed with no prior progress. -/
def planSegments (total seg : ℚ) : List SegmentDescriptor := pendingJobs total seg ∅

/-- The extent of a descriptor `[offset, offset + length)` contains `x`. -/
def covers (d : SegmentDescriptor) (x : ℚ) : Prop :=
  d.offset ≤ x ∧ x < d.offset + d.length

/-! ## Progress ledger

The resume file (`resume_log.txt`) is modelled as `Option (List String)`:
`none` when the file is absent, otherwise the list of its lines (each line
stored without its trailing newline; `upscale_segment` line 143 writes
`f"{idx}\n"`, and main line 202 strips the newline again on read). -/

/-- The whitespace characters stripped by Python `str.strip()` (restricted
to the ASCII ones; the ledger is written by this script and never contains
other code points). -/
def isSpace (c : Char) : Bool :=
  c = ' ' ∨ c = '\t' ∨ c = '\n' ∨ c = '\r' ∨ c = '\x0b' ∨ c = '\x0c'

/-- Python `s.strip()`. -/
def pyStrip (s : String) : String :=
  String.mk (((s.data.dropWhile isSpace).reverse.dropWhile isSpace).reverse)

/-- The numeric value of a non-empty all-digit character list. -/
def digitsVal : List Char → Option ℕ
  | [] => none
  | cs => if cs.all Char.isDigit then some (cs.foldl (fun a c => 10 * a + (c.toNat - 48)) 0) else none

/-- Python `int(s)` on an already-stripped string: an optional sign followed
by at least one decimal digit, otherwise a `ValueError` (`none`).
(Underscore digit grouping, also accepted by Python, is omitted: the ledger
writer at line 143 emits plain digits.) -/
def pyInt (s : String) : Option ℤ :=
  match s.data with
  | '+' :: rest => (digitsVal rest).map (fun n => (n : ℤ))
  | '-' :: rest => (digitsVal rest).map (fun n => -(n : ℤ))
  | cs => (digitsVal cs).map (fun n => (n : ℤ))

/-- The set comprehension of main line 202:
`{int(x.strip()) for x in f if x.strip()}`.  A non-empty line that `int`
rejects raises an uncaught `ValueError`, aborting the run (`Except.error`). -/
def parseResumeLines : List String → Except Unit (Finset ℤ)
  | [] => .ok ∅
  | x :: xs =>
    if pyStrip x = "" then parseResumeLines xs
    else
      match pyInt (pyStrip x) with
      | none => .error ()
      | some v => (parseResumeLines xs).map (insert v)

/-- Main lines 199–203: `done = set()`, then read the resume file only if it
exists. -/
def loadDone : Option (List String) → Except Unit (Finset ℤ)
  | none => .ok ∅
  | some lines => parseResumeLines lines

/-! ## Worker and run state -/

/-- The on-disk state visible to the script: the indices whose
`seg_XXX.mp4` artifact exists (in creation order), the resume-file content,
and the log of external-processor (ffmpeg encode) invocations. -/
structure BatchState where
  artifacts : List ℕ
  resumeLog : Option (List String)
  invoked : List ℕ
deriving DecidableEq, Repr

/-- Creating (or overwriting) the artifact file of segment `idx`. -/
def addArtifact (idx : ℕ) (l : List ℕ) : List ℕ :=
  if idx ∈ l then l else l ++ [idx]

/-- Appending `f"{idx}\n"` to the resume file (`upscale_segment` lines
142–143); `open(..., "a")` creates the file when absent. -/
def appendResume (idx : ℕ) (s : BatchState) : BatchState :=
  { s with resumeLog := some ((s.resumeLog.getD []) ++ [toString idx]) }

/-- `upscale_segment` (lines 96–145).  `ok` tells whether the ffmpeg
invocation produced the artifact; `run` (lines 53–54) discards the
subprocess exit status, so the control flow does not depend on
`ok`.  `took` abstracts the measured wall-clock duration of the invocation.
Returns the `(out, duration)` pair of lines 101/145 plus the new state. -/
def upscale_segment (ok : Bool) (took : ℕ) (idx : ℕ) (s : BatchState) :
    (String × ℕ) × BatchState :=
  if idx ∈ s.artifacts then ((segName idx, 0), s)
  else
    let s1 : BatchState :=
      { s with invoked := s.invoked ++ [idx]
               artifacts := if ok then addArtifact idx s.artifacts else s.artifacts }
    ((segName idx, took), appendResume idx s1)

/-- The worker pool of main lines 216–219, threaded in one completion
order: the jobs are processed left to right, the outcome of each invocation
given by `ok`/`took` at its index. -/
def poolPhase (ok : ℕ → Bool) (took : ℕ → ℕ) (jobs : List ℕ) (s : BatchState) : BatchState :=
  jobs.foldl (fun st i => (upscale_segment (ok i) (took i) i st).2) s

/-- `cleanup` (lines 173–179): removes every `seg_*.mp4`, `concat.txt` and
the resume file. -/
def cleanup (s : BatchState) : BatchState :=
  { s with artifacts := [], resumeLog := none }

/-- The observable outcome of one run: the ordered artifact list handed to
the merge primitive (`none` if the run aborted before reassembly) and the
final on-disk state. -/
structure RunOutcome where
  output : Option (List String)
  final : BatchState
deriving DecidableEq, Repr

/-- `main` (lines 182–226) for one run: load the ledger (an uncaught
`ValueError` aborts), build the pending job list, run the pool, concatenate
`sorted(glob("seg_*.mp4"))` into the output, then clean up. -/
def mainRun (total seg : ℚ) (ok : ℕ → Bool) (took : ℕ → ℕ) (s : BatchState) :
    Except Unit RunOutcome :=
  (loadDone s.resumeLog).map fun done =>
    let jobs := (pendingJobs total seg done).map SegmentDescriptor.index
    let s1 := poolPhase ok took jobs s
    let files := reassembleInput s1.artifacts
    { output := some files, final := cleanup s1 }

/-! ## Planner facts -/

lemma planSegments_eq (total seg : ℚ) :
    planSegments total seg =
      (List.range (nseg total seg)).map
        (fun i => ⟨i, (i : ℚ) * seg, min seg (total - (i : ℚ) * seg)⟩) := by
  unfold planSegments pendingJobs pendingIdx
  congr 1
  exact List.filter_eq_self.mpr (fun a _ => by simp)

lemma nseg_cast (total seg : ℚ) (ht : 0 < total) (hs : 0 < seg) :
    (nseg total seg : ℤ) = ⌈total / seg⌉ :=
  Int.toNat_of_nonneg (le_of_lt (Int.ceil_pos.mpr (div_pos ht hs)))

lemma nseg_pos (total seg : ℚ) (ht : 0 < total) (hs : 0 < seg) :
    0 < nseg total seg := by
  have := Int.ceil_pos.mpr (div_pos ht hs)
  unfold nseg
  omega

lemma nseg_cast_rat (total seg : ℚ) (ht : 0 < total) (hs : 0 < seg) :
    ((nseg total seg : ℕ) : ℚ) = ((⌈total / seg⌉ : ℤ) : ℚ) := by
  rw [← nseg_cast total seg ht hs]
  push_cast
  ring

lemma total_le_nseg_mul (total seg : ℚ) (ht : 0 < total) (hs : 0 < seg) :
    total ≤ (nseg total seg : ℚ) * seg := by
  have h1 : total / seg ≤ ((⌈total / seg⌉ : ℤ) : ℚ) := Int.le_ceil _
  rw [nseg_cast_rat total seg ht hs]
  exact (div_le_iff₀ hs).mp h1

lemma nseg_sub_one_mul_lt (total seg : ℚ) (ht : 0 < total) (hs : 0 < seg) :
    ((nseg total seg : ℚ) - 1) * seg < total := by
  have h1 : ((⌈total / seg⌉ : ℤ) : ℚ) < total / seg + 1 := Int.ceil_lt_add_one _
  rw [nseg_cast_rat total seg ht hs, ← lt_div_iff₀ hs]
  linarith

lemma nseg_250_120 : nseg 250 120 = 3 := by
  have h : ⌈(250 : ℚ) / 120⌉ = 3 := by
    rw [Int.ceil_eq_iff]
    norm_num
  unfold nseg
  rw [h]
  rfl

lemma nseg_360_120 : nseg 360 120 = 3 := by
  have h : ⌈(360 : ℚ) / 120⌉ = 3 := by
    rw [Int.ceil_eq_iff]
    norm_num
  unfold nseg
  rw [h]
  rfl

/-- C5: for every `total_extent > 0` and `segment_extent > 0` the planner
produces exactly `⌈total/seg⌉` descriptors, descriptor `i` carrying index
`i` and offset `i * seg`, and the length of the final descriptor being
`total - (n-1) * seg`; in particular `total = 250`, `seg = 120` yields
`[(0,0,120), (1,120,120), (2,240,10)]`. -/
theorem planner_ceil_count_offsets_lastlen :
    (∀ total seg : ℚ, 0 < total → 0 < seg →
      (((planSegments total seg).length : ℤ) = ⌈total / seg⌉ ∧
        (∀ i (hi : i < (planSegments total seg).length),
          ((planSegments total seg).get ⟨i, hi⟩).index = i ∧
          ((planSegments total seg).get ⟨i, hi⟩).offset = (i : ℚ) * seg) ∧
        ∀ hne : planSegments total seg ≠ [],
          ((planSegments total seg).getLast hne).length =
            total - ((nseg total seg : ℚ) - 1) * seg)) ∧
    planSegments 250 120 = [⟨0, 0, 120⟩, ⟨1, 120, 120⟩, ⟨2, 240, 10⟩] := by
  constructor
  · intro total seg ht hs
    have hplan := planSegments_eq total seg
    have hlen : (planSegments total seg).length = nseg total seg := by
      rw [hplan]
      simp
    refine ⟨by rw [hlen]; exact nseg_cast total seg ht hs, ?_, ?_⟩
    · intro i hi
      constructor <;>
        simp only [List.get_eq_getElem, hplan, List.getElem_map, List.getElem_range]
    · intro hne
      have hn1 : 1 ≤ nseg total seg := nseg_pos total seg ht hs
      rw [List.getLast_eq_getElem]
      simp only [List.get_eq_getElem, hplan, List.getElem_map, List.getElem_range,
        List.length_map, List.length_range]
      have hcast : ((nseg total seg - 1 : ℕ) : ℚ) = (nseg total seg : ℚ) - 1 := by
        push_cast [Nat.cast_sub hn1]
        ring
      rw [hcast]
      have h1 := total_le_nseg_mul total seg ht hs
      have h2 : ((nseg total seg : ℚ) - 1) * seg = (nseg total seg : ℚ) * seg - seg := by
        ring
      exact min_eq_right (by linarith)
  · rw [planSegments_eq, nseg_250_120]
    simp only [List.range_succ, List.range_zero, List.map_append, List.map_cons, List.map_nil,
      List.nil_append, List.cons_append, SegmentDescriptor.mk.injEq]
    norm_num [min_def]

/-- Witness for C5: the planner at `total = 250`, `seg = 120` produces
exactly `⌈250/120⌉` descriptors. -/
theorem planner_ceil_count_offsets_lastlen_witness :
    ((planSegments 250 120).length : ℤ) = ⌈(250 : ℚ) / 120⌉ :=
  (planner_ceil_count_offsets_lastlen.1 250 120 (by norm_num) (by norm_num)).1

/-- C6: for every `total_extent > 0` and `segment_extent > 0` the planned
descriptor extents cover `[0, total)` exactly: every point of `[0, total)`
lies in the extent of some descriptor, only points of `[0, total)` are covered,
and no two distinct descriptors overlap. -/
theorem plan_extents_cover_exactly :
    ∀ total seg : ℚ, 0 < total → 0 < seg →
      (∀ x : ℚ, (0 ≤ x ∧ x < total) ↔ ∃ d ∈ planSegments total seg, covers d x) ∧
      (planSegments total seg).Pairwise
        (fun d1 d2 => ∀ x : ℚ, ¬ (covers d1 x ∧ covers d2 x)) := by
  intro total seg ht hs
  have hplan := planSegments_eq total seg
  constructor
  · intro x
    constructor
    · rintro ⟨hx0, hxt⟩
      have hk0 : 0 ≤ ⌊x / seg⌋ := Int.floor_nonneg.mpr (div_nonneg hx0 (le_of_lt hs))
      have hik : ((⌊x / seg⌋.toNat : ℕ) : ℚ) = ((⌊x / seg⌋ : ℤ) : ℚ) := by
        exact_mod_cast Int.toNat_of_nonneg hk0
      have hfle : ((⌊x / seg⌋ : ℤ) : ℚ) * seg ≤ x := by
        have h := Int.floor_le (x / seg)
        calc ((⌊x / seg⌋ : ℤ) : ℚ) * seg ≤ x / seg * seg :=
              mul_le_mul_of_nonneg_right h (le_of_lt hs)
          _ = x := by field_simp
      have hflt : x < (((⌊x / seg⌋ : ℤ) : ℚ) + 1) * seg := by
        have h := Int.lt_floor_add_one (x / seg)
        calc x = x / seg * seg := by field_simp
          _ < (((⌊x / seg⌋ : ℤ) : ℚ) + 1) * seg := mul_lt_mul_of_pos_right h hs
      have hin : ⌊x / seg⌋.toNat < nseg total seg := by
        by_contra hge
        push_neg at hge
        have h1 : (nseg total seg : ℚ) * seg ≤ ((⌊x / seg⌋.toNat : ℕ) : ℚ) * seg :=
          mul_le_mul_of_nonneg_right (by exact_mod_cast hge) (le_of_lt hs)
        have h2 := total_le_nseg_mul total seg ht hs
        rw [hik] at h1
        linarith
      refine ⟨⟨⌊x / seg⌋.toNat, (⌊x / seg⌋.toNat : ℚ) * seg,
          min seg (total - (⌊x / seg⌋.toNat : ℚ) * seg)⟩, ?_, ?_, ?_⟩
      · rw [hplan]
        exact List.mem_map.mpr ⟨⌊x / seg⌋.toNat, List.mem_range.mpr hin, rfl⟩
      · show ((⌊x / seg⌋.toNat : ℕ) : ℚ) * seg ≤ x
        rw [hik]
        exact hfle
      · show x < ((⌊x / seg⌋.toNat : ℕ) : ℚ) * seg + min seg (total - ((⌊x / seg⌋.toNat : ℕ) : ℚ) * seg)
        rcases le_total seg (total - ((⌊x / seg⌋.toNat : ℕ) : ℚ) * seg) with hm | hm
        · rw [min_eq_left hm, hik]
          linarith
        · rw [min_eq_right hm]
          linarith
    · rintro ⟨d, hd, hc1, hc2⟩
      rw [hplan] at hd
      obtain ⟨i, hi, rfl⟩ := List.mem_map.mp hd
      dsimp only at hc1 hc2
      have hge : (0 : ℚ) ≤ (i : ℚ) * seg := mul_nonneg (by positivity) (le_of_lt hs)
      have hmin : min seg (total - (i : ℚ) * seg) ≤ total - (i : ℚ) * seg := min_le_right _ _
      exact ⟨le_trans hge hc1, by linarith⟩
  · rw [hplan, List.pairwise_map]
    refine (List.pairwise_lt_range _).imp_of_mem ?_
    intro a b _ _ hab x hcon
    obtain ⟨⟨ha1, ha2⟩, hb1, hb2⟩ := hcon
    dsimp only at ha1 ha2 hb1 hb2
    have hminle : min seg (total - (a : ℚ) * seg) ≤ seg := min_le_left _ _
    have hsucc : ((a : ℚ) + 1) * seg ≤ (b : ℚ) * seg := by
      have : ((a : ℚ) + 1) ≤ (b : ℚ) := by exact_mod_cast Nat.succ_le_of_lt hab
      exact mul_le_mul_of_nonneg_right this (le_of_lt hs)
    nlinarith

/-- Witness for C6: in the `total = 250`, `seg = 120` plan the point `200`
is covered by some descriptor. -/
theorem plan_extents_cover_exactly_witness :
    ∃ d ∈ planSegments 250 120, covers d 200 :=
  ((plan_extents_cover_exactly 250 120 (by norm_num) (by norm_num)).1 200).mp (by norm_num)

/-- C7: the indices dispatched in a run are exactly the index set of the plan
minus the ledgered set; in particular the `250/120` plan (3 segments) with
ledger `{0, 1}` dispatches only segment `2`. -/
theorem dispatched_equals_plan_minus_ledger :
    (∀ (n : ℕ) (done : Finset ℤ) (i : ℕ),
        i ∈ pendingIdx n done ↔ i < n ∧ (i : ℤ) ∉ done) ∧
    pendingIdx (nseg 250 120) {0, 1} = [2] := by
  constructor
  · intro n done i
    simp [pendingIdx, List.mem_filter, List.mem_range]
  · rw [nseg_250_120]
    decide

/-- C9: a missing ledger file loads as the empty completed set, and with an
empty completed set every planned segment is pending. -/
theorem missing_ledger_empty_and_all_pending :
    loadDone none = .ok ∅ ∧ ∀ n : ℕ, pendingIdx n ∅ = List.range n := by
  refine ⟨rfl, fun n => ?_⟩
  exact List.filter_eq_self.mpr (fun a _ => by simp)

/-! ## Worker fast path and failure handling -/

/-- C10: when the artifact file of the segment already exists, `upscale_segment`
(lines 100–101) returns that artifact with a reported duration of `0` and
leaves the state untouched: no processor invocation and no ledger append. -/
theorem existing_artifact_fast_path (ok : Bool) (took idx : ℕ) (s : BatchState)
    (h : idx ∈ s.artifacts) :
    upscale_segment ok took idx s = ((segName idx, 0), s) := by
  simp [upscale_segment, h]

/-- Witness for C10: segment `0` with its artifact present is skipped with
duration `0` and an unchanged state. -/
theorem existing_artifact_fast_path_witness :
    upscale_segment true 7 0 ⟨[0], none, []⟩ = (("seg_000.mp4", 0), ⟨[0], none, []⟩) := by
  rw [existing_artifact_fast_path true 7 0 ⟨[0], none, []⟩ (by decide)]
  rfl

/-- C2 (divergence witness): a failed processor invocation (`ok = false`,
producing no artifact) still appends the index of the segment to the resume
ledger, because `run` (lines 53–54) discards the exit status and lines
142–143 append unconditionally.  The claim says the index must remain
absent so the segment stays retryable; here segment `0` fails yet ends up
recorded with no artifact on disk. -/
theorem failed_segment_recorded_anyway :
    (upscale_segment false 5 0 ⟨[], none, []⟩).2 = ⟨[], some ["0"], [0]⟩ := by
  decide

/-- C1 (divergence witness): a run of the `250/120` plan (3 segments) that
starts with an empty ledger and a stray pre-existing artifact for
segment `2`.  Segment `2` takes the fast path and is never ledgered, so at
reassembly time the ledger records `{0, 1}`, not the full index set
`{0, 1, 2}`; the run nevertheless does not fail: it produces the final
artifact and `cleanup` deletes the ledger and the artifacts. -/
theorem run_ignores_incomplete_ledger :
    (poolPhase (fun _ => true) (fun _ => 0)
        ((pendingJobs 250 120 ∅).map SegmentDescriptor.index) ⟨[2], none, []⟩).resumeLog
      = some ["0", "1"] ∧
    mainRun 250 120 (fun _ => true) (fun _ => 0) ⟨[2], none, []⟩ =
      .ok ⟨some ["seg_000.mp4", "seg_001.mp4", "seg_002.mp4"], ⟨[], none, [0, 1]⟩⟩ := by
  constructor
  · simp only [pendingJobs, pendingIdx, nseg_250_120]
    decide
  · simp only [mainRun, pendingJobs, pendingIdx, nseg_250_120]
    decide

/-- C4 (divergence witness): a `360/120` run (3 segments, empty initial
state) in which the processor invocation of segment `1` fails.  The run is a
failure path — the output is silently missing segment `1` — yet `cleanup`
still executes (main lines 221–223), deleting the resume ledger and the
completed artifacts for segments `0` and `2` instead of preserving them. -/
theorem cleanup_after_failed_segment :
    mainRun 360 120 (fun i => i != 1) (fun _ => 0) ⟨[], none, []⟩ =
      .ok ⟨some ["seg_000.mp4", "seg_002.mp4"], ⟨[], none, [0, 1, 2]⟩⟩ := by
  simp only [mainRun, pendingJobs, pendingIdx, nseg_360_120]
  decide

/-! ## Ledger loading -/

/-- C8 (counterexample): a ledger whose trailing record is a non-integer
line (here `"1x"`) does NOT load successfully — `int` raises an uncaught
`ValueError` (main line 202), aborting the run — contradicting the claim
that loading succeeds and ignores the malformed entry. -/
theorem malformed_tail_aborts_load :
    loadDone (some ["0", "1x"]) = .error () := by
  decide

/-- C8 (amended): the only malformed trailing record the loader tolerates
is an empty or whitespace-only line: such a line is skipped by the
`if x.strip()` filter, leaving the completed set — and hence the pending
status of every segment — unchanged. -/
theorem whitespace_tail_ignored (lines : List String) (w : String)
    (hw : ∀ c ∈ w.data, isSpace c = true) :
    loadDone (some (lines ++ [w])) = loadDone (some lines) := by
  have hsw : pyStrip w = "" := by
    have hd : w.data.dropWhile isSpace = [] := List.dropWhile_eq_nil_iff.mpr hw
    unfold pyStrip
    rw [hd]
    rfl
  show parseResumeLines (lines ++ [w]) = parseResumeLines lines
  induction lines with
  | nil => simp [parseResumeLines, hsw]
  | cons x xs ih =>
    simp only [List.cons_append, List.append_eq, parseResumeLines, ih]

/-- Witness for C8 (amended): a whitespace-only trailing line is ignored
and the ledger still loads as `{0}`. -/
theorem whitespace_tail_ignored_witness :
    loadDone (some ["0", " "]) = loadDone (some ["0"]) ∧
    loadDone (some ["0"]) = .ok {0} :=
  ⟨whitespace_tail_ignored ["0"] " " (by decide), by decide⟩

/-! ## Reassembly ordering -/

/-- C3 (counterexample): for the 1001-segment plan (indices `0..1000`,
which the planner produces whenever `total > 1000 * seg`), the reassembly
input is NOT in ascending index order: `"seg_1000.mp4"` sorts before
`"seg_999.mp4"` under the filename sort of main line 221, so the merge
order differs from the ascending-index listing. -/
theorem reassembly_not_index_sorted_at_1001 :
    reassembleInput (List.range 1001) ≠ (List.range 1001).map segName := by
  intro h
  have hs : List.Sorted pyStrLe ((List.range 1001).map segName) := by
    rw [← h]
    exact List.sorted_insertionSort _ _
  have h999 : 999 < ((List.range 1001).map segName).length := by simp
  have h1000 : 1000 < ((List.range 1001).map segName).length := by simp
  have hrel := hs.rel_get_of_lt (a := ⟨999, h999⟩) (b := ⟨1000, h1000⟩)
    (by rw [Fin.mk_lt_mk]; norm_num)
  simp only [List.get_eq_getElem, List.getElem_map, List.getElem_range] at hrel
  exact absurd hrel (by decide)

/-- C3 (amended): for every plan of at most 1000 segments, whatever order
the glob listing (and hence the dispatch completion order) presents the
artifacts in, the reassembly input lists the artifacts of the plan in strictly
ascending segment-index order — so every permutation yields the same
merge input. -/
theorem reassembly_index_sorted_upto_1000 (n : ℕ) (hn : n ≤ 1000) (gl : List ℕ)
    (hgl : gl.Perm (List.range n)) :
    reassembleInput gl = (List.range n).map segName := by
  refine List.eq_of_perm_of_sorted ?_ ?_ (sorted_segNames hn)
  · exact (List.perm_insertionSort _ _).trans (hgl.map _)
  · exact List.sorted_insertionSort _ _

/-- Witness for C3 (amended): a 3-segment plan whose artifacts are listed
in the scrambled order `[2, 0, 1]` is still merged as segments `0, 1, 2`. -/
theorem reassembly_index_sorted_upto_1000_witness :
    reassembleInput [2, 0, 1] = ["seg_000.mp4", "seg_001.mp4", "seg_002.mp4"] := by
  rw [reassembly_index_sorted_upto_1000 3 (by norm_num) [2, 0, 1] (by decide)]
  rfl

end UpscaleResumeSafe
